import Mathlib

/-
Verification development for the facebook-marketplace-rss repository.

Shallow embedding of the core pure logic of the crate:
  * src/scraper.rs   : extract_ads, get_ad_hash (MD5 per RFC 1321, as the md5 crate)
  * src/filter.rs    : apply_filters
  * src/config.rs    : Config::validate
  * src/web.rs       : update_config handler (state transition on the config state)
  * src/db.rs        : insert_or_update_ad, prune_old_ads, get_recent_ads over the
                       ad_changes table, modelled as a list of rows

Modelling conventions:
  * Rust machine integers are Nat with explicit `% 2 ^ w` where wrapping matters.
  * Timestamps (chrono DateTime<Utc>) are Int seconds; chrono Duration::days(n)
    is n * 86400 seconds.  The SQL comparisons on RFC 3339 text columns agree
    with chronological order for uniformly formatted UTC timestamps, so they are
    modelled as Int comparisons.
  * Strings are compared and transformed at the character-list level; Rust
    str::to_lowercase is modelled per character (they agree on ASCII input,
    which is all the repository's keyword matching exercises).
  * HashMap / HashSet are modelled as association lists / lists; SQL result
    sets as lists of rows.
-/

/-- Per-character lowercasing; model of Rust str::to_lowercase (agrees on ASCII). -/
def to_lowercase (s : String) : String := String.mk (s.data.map Char.toLower)

/-- Substring test on character lists; model of Rust str::contains(&str)
(byte-level substring search coincides with character-level search on valid UTF-8). -/
def containsSubList : List Char → List Char → Bool
  | [], needle => needle.isEmpty
  | c :: t, needle => needle.isPrefixOf (c :: t) || containsSubList t needle

/-- String-level wrapper for `containsSubList`. -/
def containsSub (hay needle : String) : Bool := containsSubList hay.data needle.data

/-- First-match lookup in an association list; model of HashMap::get (a HashMap
has unique keys, so first-match lookup is exact on states reachable from Rust). -/
def alist_find? {β : Type} (l : List (String × β)) (k : String) : Option β :=
  (l.find? (fun p => decide (p.1 = k))).map Prod.snd

/-! Part 1: MD5 (RFC 1321), as computed by the md5 crate used in src/scraper.rs -/

/-- UTF-8 encoding of one character, byte values as Nat. -/
def utf8EncodeChar (c : Char) : List Nat :=
  let n := c.toNat
  if n < 128 then [n]
  else if n < 2048 then [192 + n / 64, 128 + n % 64]
  else if n < 65536 then [224 + n / 4096, 128 + n / 64 % 64, 128 + n % 64]
  else [240 + n / 262144, 128 + n / 4096 % 64, 128 + n / 64 % 64, 128 + n % 64]

/-- UTF-8 bytes of a string; model of str::as_bytes() for the md5 crate input. -/
def utf8Bytes (s : String) : List Nat := s.data.flatMap utf8EncodeChar

/-- MD5 round constants K, RFC 1321. -/
def md5K : List Nat :=
  [0xd76aa478, 0xe8c7b756, 0x242070db, 0xc1bdceee,
   0xf57c0faf, 0x4787c62a, 0xa8304613, 0xfd469501,
   0x698098d8, 0x8b44f7af, 0xffff5bb1, 0x895cd7be,
   0x6b901122, 0xfd987193, 0xa679438e, 0x49b40821,
   0xf61e2562, 0xc040b340, 0x265e5a51, 0xe9b6c7aa,
   0xd62f105d, 0x02441453, 0xd8a1e681, 0xe7d3fbc8,
   0x21e1cde6, 0xc33707d6, 0xf4d50d87, 0x455a14ed,
   0xa9e3e905, 0xfcefa3f8, 0x676f02d9, 0x8d2a4c8a,
   0xfffa3942, 0x8771f681, 0x6d9d6122, 0xfde5380c,
   0xa4beea44, 0x4bdecfa9, 0xf6bb4b60, 0xbebfbc70,
   0x289b7ec6, 0xeaa127fa, 0xd4ef3085, 0x04881d05,
   0xd9d4d039, 0xe6db99e5, 0x1fa27cf8, 0xc4ac5665,
   0xf4292244, 0x432aff97, 0xab9423a7, 0xfc93a039,
   0x655b59c3, 0x8f0ccc92, 0xffeff47d, 0x85845dd1,
   0x6fa87e4f, 0xfe2ce6e0, 0xa3014314, 0x4e0811a1,
   0xf7537e82, 0xbd3af235, 0x2ad7d2bb, 0xeb86d391]

/-- MD5 per-round left-rotation amounts, RFC 1321. -/
def md5S : List Nat :=
  [7, 12, 17, 22, 7, 12, 17, 22, 7, 12, 17, 22, 7, 12, 17, 22,
   5, 9, 14, 20, 5, 9, 14, 20, 5, 9, 14, 20, 5, 9, 14, 20,
   4, 11, 16, 23, 4, 11, 16, 23, 4, 11, 16, 23, 4, 11, 16, 23,
   6, 10, 15, 21, 6, 10, 15, 21, 6, 10, 15, 21, 6, 10, 15, 21]

/-- Bitwise complement on 32-bit words represented as Nat below 2^32. -/
def not32 (x : Nat) : Nat := 4294967295 - x % 4294967296

/-- Left rotation of a 32-bit word. -/
def rotl32 (x s : Nat) : Nat :=
  (x % 4294967296 / 2 ^ (32 - s) + x % 4294967296 * 2 ^ s) % 4294967296

/-- Little-endian 32-bit message word g of a 64-byte block. -/
def blockWord (block : List Nat) (g : Nat) : Nat :=
  block.getD (4 * g) 0 + 256 * block.getD (4 * g + 1) 0 +
    65536 * block.getD (4 * g + 2) 0 + 16777216 * block.getD (4 * g + 3) 0

/-- One MD5 round (round index i from 0 to 63) on the working state (a, b, c, d). -/
def md5Step (block : List Nat) (st : Nat × Nat × Nat × Nat) (i : Nat) :
    Nat × Nat × Nat × Nat :=
  let a := st.1
  let b := st.2.1
  let c := st.2.2.1
  let d := st.2.2.2
  let fg : Nat × Nat :=
    if i < 16 then ((b &&& c) ||| (not32 b &&& d), i)
    else if i < 32 then ((d &&& b) ||| (not32 d &&& c), (5 * i + 1) % 16)
    else if i < 48 then (b ^^^ c ^^^ d, (3 * i + 5) % 16)
    else (c ^^^ (b ||| not32 d), (7 * i) % 16)
  let f := (fg.1 + a + md5K.getD i 0 + blockWord block fg.2) % 4294967296
  (d, (b + rotl32 f (md5S.getD i 0)) % 4294967296, b, c)

/-- Process one 64-byte block: 64 rounds, then add into the chaining state mod 2^32. -/
def md5ProcessBlock (st : Nat × Nat × Nat × Nat) (block : List Nat) :
    Nat × Nat × Nat × Nat :=
  let e := (List.range 64).foldl (md5Step block) st
  ((st.1 + e.1) % 4294967296, (st.2.1 + e.2.1) % 4294967296,
   (st.2.2.1 + e.2.2.1) % 4294967296, (st.2.2.2 + e.2.2.2) % 4294967296)

/-- Little-endian 8-byte encoding (of the bit length mod 2^64). -/
def le64 (x : Nat) : List Nat :=
  [x % 256, x / 256 % 256, x / 65536 % 256, x / 16777216 % 256,
   x / 4294967296 % 256, x / 1099511627776 % 256,
   x / 281474976710656 % 256, x / 72057594037927936 % 256]

/-- MD5 padding: 0x80, zeros to 56 mod 64, then the bit length, little-endian. -/
def md5Pad (msg : List Nat) : List Nat :=
  msg ++ 128 :: List.replicate ((119 - msg.length % 64) % 64) 0 ++ le64 (msg.length * 8)

/-- Split a byte list into 64-byte blocks. -/
def md5Chunks (l : List Nat) : List (List Nat) :=
  if h : l = [] then [] else l.take 64 :: md5Chunks (l.drop 64)
termination_by l.length
decreasing_by
  simp only [List.length_drop]
  have : 0 < l.length := List.length_pos.mpr h
  omega

/-- MD5 initial chaining state. -/
def md5Init : Nat × Nat × Nat × Nat := (0x67452301, 0xefcdab89, 0x98badcfe, 0x10325476)

/-- Final reduction of the chaining state to four 32-bit words. -/
def md5Finalize (st : Nat × Nat × Nat × Nat) : Nat × Nat × Nat × Nat :=
  (st.1 % 4294967296, st.2.1 % 4294967296, st.2.2.1 % 4294967296, st.2.2.2 % 4294967296)

/-- The four 32-bit state words of the MD5 digest of a byte sequence. -/
def md5Words (msg : List Nat) : Nat × Nat × Nat × Nat :=
  md5Finalize ((md5Chunks (md5Pad msg)).foldl md5ProcessBlock md5Init)

/-- Little-endian 4-byte encoding of a 32-bit word. -/
def le32 (x : Nat) : List Nat := [x % 256, x / 256 % 256, x / 65536 % 256, x / 16777216 % 256]

/-- Digest bytes from the four state words, little-endian each, a0 b0 c0 d0. -/
def digestOfWords (w : Nat × Nat × Nat × Nat) : List Nat :=
  le32 w.1 ++ le32 w.2.1 ++ le32 w.2.2.1 ++ le32 w.2.2.2

/-- The 16 digest bytes of MD5. -/
def md5Digest (msg : List Nat) : List Nat := digestOfWords (md5Words msg)

/-- The sixteen lowercase hexadecimal digits. -/
def hexChars : List Char := "0123456789abcdef".data

/-- Hexadecimal digit character for n mod 16. -/
def hexDigit (n : Nat) : Char := hexChars.getD (n % 16) '0'

/-- Two lowercase hex characters of one byte, as in format with 02x per byte. -/
def byteHex (b : Nat) : List Char := [hexDigit (b / 16), hexDigit b]

/-- Lowercase hexadecimal MD5 digest string; model of format! with the x
specifier on md5::Digest. -/
def md5Hex (msg : List Nat) : String := String.mk ((md5Digest msg).flatMap byteHex)

/-- src/scraper.rs get_ad_hash: lowercase hex MD5 of the URL string. -/
def get_ad_hash (url : String) : String := md5Hex (utf8Bytes url)

/-! Part 2: src/scraper.rs extract_ads.

The HTML parsing and CSS selection are an external adapter (the scraper
crate); the spec treats them as outside the core.  An `AdLinkElem` models one
element matched by the ad-link selector, with the text of the first
title-selector and price-selector descendant, trimmed, when present. -/

structure AdLinkElem where
  href : Option String
  title : Option String
  price : Option String

/-- Truncate the href at the first question mark; model of
href.split at the question mark, taking the first piece. -/
def truncate_at_query (h : String) : String :=
  String.mk (h.data.takeWhile (fun c => c != '?'))

/-- The canonical listing URL: the facebook prefix glued to the truncated href. -/
def canonical_url (h : String) : String :=
  "https://facebook.com" ++ truncate_at_query h

/-- Price acceptance test of extract_ads: price starts with the configured
currency symbol, or its lowercasing contains the word free. -/
def price_ok (currency p : String) : Bool :=
  currency.data.isPrefixOf p.data || containsSub (to_lowercase p) "free"

/-- Loop of extract_ads over ad link elements, threading the set of already
processed canonical URLs (the HashSet, modelled as a list).  Mirrors
src/scraper.rs lines 83 to 111: the URL is inserted into the set before the
title/price check, so any later element with the same canonical URL is
skipped regardless of the outcome of that check. -/
def extractGo (currency : String) : List AdLinkElem → List String →
    List (String × String × String × String)
  | [], _ => []
  | e :: rest, processed =>
    match e.href with
    | none => extractGo currency rest processed
    | some h =>
      if canonical_url h ∈ processed then extractGo currency rest processed
      else
        match e.title, e.price with
        | some t, some p =>
          if price_ok currency p then
            (get_ad_hash (canonical_url h), t, p, canonical_url h) ::
              extractGo currency rest (canonical_url h :: processed)
          else extractGo currency rest (canonical_url h :: processed)
        | _, _ => extractGo currency rest (canonical_url h :: processed)

/-- src/scraper.rs extract_ads: candidates (id_hash, title, price, url). -/
def extract_ads (elems : List AdLinkElem) (currency : String) :
    List (String × String × String × String) :=
  extractGo currency elems []

/-! Part 3: src/filter.rs apply_filters. -/

/-- Key test of the evaluator, src/filter.rs line 20: starts with level and
every remaining character is an ASCII digit.  The remainder may be empty, so
the bare key level passes this test. -/
def isLevelKey (k : String) : Bool :=
  "level".data.isPrefixOf k.data && (k.data.drop 5).all Char.isDigit

/-- Value of a digit string as parsed by u32 parse: none when empty or when
the value overflows u32. -/
def parseU32 (cs : List Char) : Option Nat :=
  if cs.isEmpty then none
  else
    let n := cs.foldl (fun acc c => acc * 10 + (c.toNat - 48)) 0
    if n < 4294967296 then some n else none

/-- Numeric sort key of a level name, src/filter.rs line 23: parse of the
suffix, with 0 on failure (empty suffix or u32 overflow). -/
def levelNum (k : String) : Nat :=
  match parseU32 (k.data.drop 5) with
  | some n => n
  | none => 0

/-- Comparison of level names by numeric suffix, used for the stable sort. -/
def levelLe (a b : String) : Prop := levelNum a ≤ levelNum b

instance : DecidableRel levelLe :=
  fun a b => inferInstanceAs (Decidable (levelNum a ≤ levelNum b))

instance : IsTotal String levelLe := ⟨fun a b => Nat.le_total (levelNum a) (levelNum b)⟩

instance : IsTrans String levelLe := ⟨fun _ _ _ hab hbc => Nat.le_trans hab hbc⟩

/-- Test whether one keyword occurs, case-insensitively, in the already
lowercased title; src/filter.rs line 44. -/
def keywordHit (title_lower kw : String) : Bool :=
  containsSub title_lower (to_lowercase kw)

/-- Level loop of apply_filters, src/filter.rs lines 31 to 49: a missing or
empty keyword list is skipped; a non-empty level passes when some keyword
occurs in the title; the first failing non-empty level rejects. -/
def checkLevels (filters : List (String × List String)) (title_lower : String) :
    List String → Bool
  | [] => true
  | level :: rest =>
    match alist_find? filters level with
    | none => checkLevels filters title_lower rest
    | some keywords =>
      if keywords.isEmpty then checkLevels filters title_lower rest
      else if keywords.any (keywordHit title_lower) then checkLevels filters title_lower rest
      else false

/-- src/filter.rs apply_filters. -/
def apply_filters (url_filters : List (String × List (String × List String)))
    (url title : String) : Bool :=
  match alist_find? url_filters url with
  | none => true
  | some filters =>
    if filters.isEmpty then true
    else
      if (List.insertionSort levelLe ((filters.map Prod.fst).filter isLevelKey)).isEmpty then
        true
      else
        checkLevels filters (to_lowercase title)
          (List.insertionSort levelLe ((filters.map Prod.fst).filter isLevelKey))

/-! Part 4: src/config.rs Config and Config::validate. -/

/-- src/config.rs Config (url_filters as an association list). -/
structure Config where
  server_ip : String
  server_port : Nat
  currency : String
  refresh_interval_minutes : Nat
  log_filename : String
  database_name : String
  url_filters : List (String × List (String × List String))
deriving DecidableEq

/-- Level-name test of Config::validate, src/config.rs lines 47 to 49: starts
with level, remainder all ASCII digits, and total length strictly more than 5,
so at least one digit is required (the bare key level is rejected here). -/
def validLevelName (k : String) : Bool :=
  "level".data.isPrefixOf k.data && (k.data.drop 5).all Char.isDigit &&
    decide (5 < k.data.length)

/-- Level-name sweep of Config::validate for one URL entry. -/
def checkLevelNames (url : String) : List String → Except String Unit
  | [] => Except.ok ()
  | k :: rest =>
    if validLevelName k = false then
      Except.error ("Invalid filter level name " ++ k ++ " for URL " ++ url)
    else checkLevelNames url rest

/-- URL-filters sweep of Config::validate.  The url crate parse together with
the scheme/host check is an external collaborator, abstracted by the urlOk
oracle. -/
def checkUrlFilters (urlOk : String → Bool) :
    List (String × List (String × List String)) → Except String Unit
  | [] => Except.ok ()
  | (url, filters) :: rest =>
    if urlOk url = false then Except.error ("Invalid URL format: " ++ url)
    else
      match checkLevelNames url (filters.map Prod.fst) with
      | Except.error e => Except.error e
      | Except.ok _ => checkUrlFilters urlOk rest

/-- src/config.rs Config::validate. -/
def Config.validate (urlOk : String → Bool) (c : Config) : Except String Unit :=
  if c.server_port = 0 then Except.error "Server port must be greater than 0"
  else if c.refresh_interval_minutes = 0 then
    Except.error "Refresh interval must be greater than 0"
  else checkUrlFilters urlOk c.url_filters

/-! Part 5: src/web.rs update_config. -/

/-- The configuration-bearing part of web.rs AppState: the persisted file at
config_path and the RwLock-guarded shared configuration. -/
structure AppState where
  configFile : Option Config
  config : Config
deriving DecidableEq

/-- Outcome of the update_config handler. -/
inductive UpdateResponse
  | ok
  | badRequest (detail : String)
  | internalError (detail : String)
deriving DecidableEq

/-- src/web.rs update_config, as a transition on the configuration state:
validation failure returns 400 and touches nothing; then the file is saved
(fs::write abstracted by the saveOk flag, failure returning 500 with the file
unchanged) and the shared configuration replaced. -/
def update_config (urlOk : String → Bool) (saveOk : Bool) (st : AppState)
    (newConfig : Config) : AppState × UpdateResponse :=
  match Config.validate urlOk newConfig with
  | Except.error e => (st, UpdateResponse.badRequest e)
  | Except.ok _ =>
    if saveOk then
      ({ configFile := some newConfig, config := newConfig }, UpdateResponse.ok)
    else (st, UpdateResponse.internalError "Failed to save config")

/-! Part 6: src/db.rs, the ad_changes table. -/

/-- src/db.rs AdEntry.  Timestamps are Int seconds. -/
structure AdEntry where
  ad_id : String
  title : String
  price : String
  url : String
  first_seen : Int
  last_checked : Int
deriving DecidableEq

/-- Row found for an ad_id, if any; model of the SELECT by primary key. -/
def findAd (db : List AdEntry) (adId : String) : Option AdEntry :=
  db.find? (fun e => decide (e.ad_id = adId))

/-- src/db.rs insert_or_update_ad on the table state: if the ad_id is absent,
INSERT the row (with the entry's first_seen and last_checked) and return true;
otherwise UPDATE last_checked, title and price of the matching row and return
false. -/
def insert_or_update_ad (db : List AdEntry) (entry : AdEntry) : List AdEntry × Bool :=
  if (db.any (fun e => decide (e.ad_id = entry.ad_id))) = false then
    (db ++ [entry], true)
  else
    (db.map (fun e =>
      if e.ad_id = entry.ad_id then
        { e with title := entry.title, price := entry.price,
                 last_checked := entry.last_checked }
      else e), false)

/-- Upsert as invoked by check_for_ads in src/main.rs lines 102 to 110: the
entry is built with first_seen = last_checked = now. -/
def upsert_listing (db : List AdEntry) (adId title price url : String) (now : Int) :
    List AdEntry × Bool :=
  insert_or_update_ad db
    { ad_id := adId, title := title, price := price, url := url,
      first_seen := now, last_checked := now }

/-- src/db.rs prune_old_ads: DELETE the rows with last_checked before
now minus days * 86400 seconds; return the remaining table and the number of
rows deleted. -/
def prune_old_ads (db : List AdEntry) (now days : Int) : List AdEntry × Nat :=
  (db.filter (fun e => !decide (e.last_checked < now - days * 86400)),
   (db.filter (fun e => decide (e.last_checked < now - days * 86400))).length)

/-- Ordering of rows by last_checked descending, for ORDER BY last_checked DESC. -/
def adGe (a b : AdEntry) : Prop := b.last_checked ≤ a.last_checked

instance : DecidableRel adGe :=
  fun a b => inferInstanceAs (Decidable (b.last_checked ≤ a.last_checked))

instance : IsTotal AdEntry adGe :=
  ⟨fun a b => Or.symm (Int.le_total a.last_checked b.last_checked)⟩

instance : IsTrans AdEntry adGe := ⟨fun _ _ _ h1 h2 => Int.le_trans h2 h1⟩

/-- src/db.rs get_recent_ads: the rows with last_checked at or after
now minus days * 86400 seconds, ordered by last_checked descending. -/
def get_recent_ads (db : List AdEntry) (now days : Int) : List AdEntry :=
  List.insertionSort adGe
    (db.filter (fun e => decide (now - days * 86400 ≤ e.last_checked)))

/-- States of the ad_changes table reachable from the empty table by upserts
(as issued by check_for_ads) and prunes, under a monotone clock: each
operation happens at a time no earlier than every previous operation. -/
inductive ReachableDb : Int → List AdEntry → Prop
  | init (t : Int) : ReachableDb t []
  | upsert (t : Int) (db : List AdEntry) (adId title price url : String) (t2 : Int)
      (hle : t ≤ t2) (hr : ReachableDb t db) :
      ReachableDb t2 (upsert_listing db adId title price url t2).1
  | prune (t : Int) (db : List AdEntry) (days : Int) (t2 : Int)
      (hle : t ≤ t2) (hr : ReachableDb t db) :
      ReachableDb t2 (prune_old_ads db t2 days).1

/-! Helper lemmas for the store. -/

theorem find?_append_of_none {α : Type} {p : α → Bool} {l1 : List α} (l2 : List α)
    (h : l1.find? p = none) : (l1 ++ l2).find? p = l2.find? p := by
  induction l1 with
  | nil => rfl
  | cons a t ih =>
    cases hp : p a with
    | true => rw [List.find?_cons_of_pos _ hp] at h; exact absurd h (by simp)
    | false =>
      rw [List.find?_cons_of_neg _ (by simp [hp])] at h
      rw [List.cons_append, List.find?_cons_of_neg _ (by simp [hp])]
      exact ih h

theorem findAd_map_keep_id (db : List AdEntry) (adId : String) (f : AdEntry → AdEntry)
    (hid : ∀ e, (f e).ad_id = e.ad_id) :
    findAd (db.map f) adId = (findAd db adId).map f := by
  induction db with
  | nil => rfl
  | cons a t ih =>
    simp only [List.map_cons, findAd, List.find?_cons, hid]
    cases hb : decide (a.ad_id = adId) with
    | true => rfl
    | false => simpa [findAd] using ih

theorem length_filter_partition {α : Type} (p : α → Bool) (l : List α) :
    (l.filter p).length + (l.filter (fun a => !p a)).length = l.length := by
  induction l with
  | nil => rfl
  | cons a t ih => cases hp : p a <;> simp [List.filter_cons, hp] <;> omega

theorem reachable_aux : ∀ {t : Int} {db : List AdEntry}, ReachableDb t db →
    (db.map (fun e => e.ad_id)).Nodup ∧
      ∀ e ∈ db, e.first_seen ≤ e.last_checked ∧ e.last_checked ≤ t := by
  intro t db h
  induction h with
  | init t => simp
  | prune t0 db0 days t2 hle hr ih =>
    constructor
    · have hsub : ((prune_old_ads db0 t2 days).1.map (fun e => e.ad_id)).Sublist
          (db0.map fun e => e.ad_id) := by
        simp only [prune_old_ads]
        exact List.Sublist.map _ (List.filter_sublist db0)
      exact List.Nodup.sublist hsub ih.1
    · intro e he
      simp only [prune_old_ads, List.mem_filter] at he
      exact ⟨(ih.2 e he.1).1, le_trans (ih.2 e he.1).2 hle⟩
  | upsert t0 db0 adId title price url t2 hle hr ih =>
    cases hany : (db0.any fun e => decide (e.ad_id = adId)) with
    | false =>
      have hnotin : adId ∉ db0.map (fun e => e.ad_id) := by
        intro hmem
        obtain ⟨e, he, heq⟩ := List.mem_map.mp hmem
        have := List.any_eq_false.mp hany e he
        simp [heq] at this
      constructor
      · simp only [upsert_listing, insert_or_update_ad, hany, if_pos, List.map_append,
          List.nodup_append]
        exact ⟨ih.1, List.nodup_singleton _, List.disjoint_singleton.mpr hnotin⟩
      · intro e he
        simp only [upsert_listing, insert_or_update_ad, hany, if_pos] at he
        rcases List.mem_append.mp he with hl | hr2
        · exact ⟨(ih.2 e hl).1, le_trans (ih.2 e hl).2 hle⟩
        · rcases List.mem_singleton.mp hr2 with rfl
          exact ⟨le_refl _, le_refl _⟩
    | true =>
      have hbranch : (upsert_listing db0 adId title price url t2).1 =
          db0.map (fun e => if e.ad_id = adId then
            { e with title := title, price := price, last_checked := t2 } else e) := by
        simp [upsert_listing, insert_or_update_ad, hany]
      rw [hbranch]
      constructor
      · rw [List.map_map]
        have : db0.map ((fun e => e.ad_id) ∘ (fun e => if e.ad_id = adId then
            { e with title := title, price := price, last_checked := t2 } else e)) =
            db0.map (fun e => e.ad_id) := by
          apply List.map_congr_left
          intro e _
          by_cases h2 : e.ad_id = adId <;> simp [h2]
        rw [this]
        exact ih.1
      · intro e2 he2
        obtain ⟨e, he, rfl⟩ := List.mem_map.mp he2
        by_cases h2 : e.ad_id = adId
        · have := ih.2 e he
          simp only [h2, if_pos]
          constructor
          · exact le_trans (le_trans this.1 this.2) hle
          · exact le_refl _
        · simp only [h2, if_neg, ite_false]
          exact ⟨(ih.2 e he).1, le_trans (ih.2 e he).2 hle⟩

/-! Claim theorems for the store. -/

/-- C1: upsert of an absent ad_id inserts the row with
first_seen = last_checked = now and returns true; upsert of a present ad_id
updates title, price and last_checked, leaves first_seen and url untouched,
and returns false; hence upserting the ad_id of the same canonical URL twice
yields true then false, the second call leaves first_seen at the first time
and sets last_checked to the later time. -/
theorem upsert_semantics :
    (∀ (db : List AdEntry) (adId title price url : String) (now : Int),
      findAd db adId = none →
        (upsert_listing db adId title price url now).2 = true ∧
        findAd (upsert_listing db adId title price url now).1 adId =
          some { ad_id := adId, title := title, price := price, url := url,
                 first_seen := now, last_checked := now })
    ∧ (∀ (db : List AdEntry) (adId title price url : String) (now : Int) (e0 : AdEntry),
      findAd db adId = some e0 →
        (upsert_listing db adId title price url now).2 = false ∧
        findAd (upsert_listing db adId title price url now).1 adId =
          some { e0 with title := title, price := price, last_checked := now })
    ∧ (∀ (db : List AdEntry) (url t1 p1 t2 p2 : String) (now1 now2 : Int),
      findAd db (get_ad_hash url) = none → now1 < now2 →
        (upsert_listing db (get_ad_hash url) t1 p1 url now1).2 = true ∧
        (upsert_listing (upsert_listing db (get_ad_hash url) t1 p1 url now1).1
          (get_ad_hash url) t2 p2 url now2).2 = false ∧
        findAd (upsert_listing (upsert_listing db (get_ad_hash url) t1 p1 url now1).1
            (get_ad_hash url) t2 p2 url now2).1 (get_ad_hash url) =
          some { ad_id := get_ad_hash url, title := t2, price := p2, url := url,
                 first_seen := now1, last_checked := now2 }) := by
  have part1 : ∀ (db : List AdEntry) (adId title price url : String) (now : Int),
      findAd db adId = none →
        (upsert_listing db adId title price url now).2 = true ∧
        findAd (upsert_listing db adId title price url now).1 adId =
          some { ad_id := adId, title := title, price := price, url := url,
                 first_seen := now, last_checked := now } := by
    intro db adId title price url now hnone
    have hany : (db.any fun e => decide (e.ad_id = adId)) = false := by
      rw [List.any_eq_false]
      intro e he
      have := List.find?_eq_none.mp hnone e he
      simpa using this
    constructor
    · simp [upsert_listing, insert_or_update_ad, hany]
    · simp only [upsert_listing, insert_or_update_ad, hany, if_pos]
      unfold findAd at hnone ⊢
      rw [find?_append_of_none _ hnone]
      simp [List.find?_cons]
  have part2 : ∀ (db : List AdEntry) (adId title price url : String) (now : Int)
      (e0 : AdEntry), findAd db adId = some e0 →
        (upsert_listing db adId title price url now).2 = false ∧
        findAd (upsert_listing db adId title price url now).1 adId =
          some { e0 with title := title, price := price, last_checked := now } := by
    intro db adId title price url now e0 hsome
    have hsome2 : List.find? (fun e => decide (e.ad_id = adId)) db = some e0 := hsome
    have hmem := List.mem_of_find?_eq_some hsome2
    have hpred := List.find?_some hsome2
    have he0 : e0.ad_id = adId := by simpa using hpred
    have hany : (db.any fun e => decide (e.ad_id = adId)) = true :=
      List.any_eq_true.mpr ⟨e0, hmem, hpred⟩
    constructor
    · simp [upsert_listing, insert_or_update_ad, hany]
    · have hbranch : (upsert_listing db adId title price url now).1 =
          db.map (fun e => if e.ad_id = adId then
            { e with title := title, price := price, last_checked := now } else e) := by
        simp [upsert_listing, insert_or_update_ad, hany]
      rw [hbranch, findAd_map_keep_id db adId _
        (fun e => by by_cases h2 : e.ad_id = adId <;> simp [h2]), hsome]
      simp [he0]
  refine ⟨part1, part2, ?_⟩
  intro db url t1 p1 t2 p2 now1 now2 hnone _
  obtain ⟨h1a, h1b⟩ := part1 db (get_ad_hash url) t1 p1 url now1 hnone
  obtain ⟨h2a, h2b⟩ := part2 (upsert_listing db (get_ad_hash url) t1 p1 url now1).1
    (get_ad_hash url) t2 p2 url now2 _ h1b
  exact ⟨h1a, h2a, h2b⟩

/-- C1 witness: concrete double upsert of the hash of one URL on the empty store. -/
theorem upsert_semantics_witness :
    (upsert_listing [] (get_ad_hash "https://facebook.com/marketplace/item/1") "t1" "p1"
      "https://facebook.com/marketplace/item/1" 0).2 = true ∧
    (upsert_listing (upsert_listing [] (get_ad_hash "https://facebook.com/marketplace/item/1")
        "t1" "p1" "https://facebook.com/marketplace/item/1" 0).1
      (get_ad_hash "https://facebook.com/marketplace/item/1") "t2" "p2"
      "https://facebook.com/marketplace/item/1" 1).2 = false ∧
    findAd (upsert_listing (upsert_listing []
          (get_ad_hash "https://facebook.com/marketplace/item/1") "t1" "p1"
          "https://facebook.com/marketplace/item/1" 0).1
        (get_ad_hash "https://facebook.com/marketplace/item/1") "t2" "p2"
        "https://facebook.com/marketplace/item/1" 1).1
      (get_ad_hash "https://facebook.com/marketplace/item/1") =
      some { ad_id := get_ad_hash "https://facebook.com/marketplace/item/1", title := "t2",
             price := "p2", url := "https://facebook.com/marketplace/item/1",
             first_seen := 0, last_checked := 1 } :=
  upsert_semantics.2.2 [] "https://facebook.com/marketplace/item/1" "t1" "p1" "t2" "p2" 0 1
    rfl (by norm_num)

/-- C3: prune removes exactly the rows whose last_checked predates
now minus days * 86400 seconds, never removes a more recent row, invents no
row, returns the number removed, and is the identity with count 0 when no row
matches. -/
theorem prune_old_ads_spec : ∀ (db : List AdEntry) (now days : Int),
    (∀ e, e ∈ db → e.last_checked < now - days * 86400 →
      e ∉ (prune_old_ads db now days).1)
    ∧ (∀ e, e ∈ db → now - days * 86400 ≤ e.last_checked →
      e ∈ (prune_old_ads db now days).1)
    ∧ (∀ e, e ∈ (prune_old_ads db now days).1 → e ∈ db)
    ∧ (prune_old_ads db now days).2 + (prune_old_ads db now days).1.length = db.length
    ∧ ((∀ e ∈ db, now - days * 86400 ≤ e.last_checked) →
      (prune_old_ads db now days).1 = db ∧ (prune_old_ads db now days).2 = 0) := by
  intro db now days
  refine ⟨?_, ?_, ?_, ?_, ?_⟩
  · intro e he hold
    simp only [prune_old_ads, List.mem_filter]
    rintro ⟨-, hb⟩
    simp at hb
    omega
  · intro e he hge
    simp only [prune_old_ads, List.mem_filter]
    exact ⟨he, by simp; omega⟩
  · intro e he
    simp only [prune_old_ads, List.mem_filter] at he
    exact he.1
  · simp only [prune_old_ads]
    exact length_filter_partition (fun e => decide (e.last_checked < now - days * 86400)) db
  · intro hall
    constructor
    · simp only [prune_old_ads]
      apply List.filter_eq_self.mpr
      intro a ha
      have := hall a ha
      simp
      omega
    · simp only [prune_old_ads]
      have hnil : db.filter (fun e => decide (e.last_checked < now - days * 86400)) = [] := by
        apply List.filter_eq_nil_iff.mpr
        intro a ha
        have := hall a ha
        simp
        omega
      rw [hnil]
      rfl

/-- C3 witness: one stale and one fresh row; the stale one is removed, the
fresh one kept, count 1, and with an all-fresh store nothing is removed. -/
theorem prune_old_ads_spec_witness :
    (⟨"old", "t", "p", "u", 0, 0⟩ : AdEntry) ∉
      (prune_old_ads [⟨"old", "t", "p", "u", 0, 0⟩, ⟨"new", "t", "p", "u", 50, 50⟩] 86450 1).1
    ∧ (⟨"new", "t", "p", "u", 50, 50⟩ : AdEntry) ∈
      (prune_old_ads [⟨"old", "t", "p", "u", 0, 0⟩, ⟨"new", "t", "p", "u", 50, 50⟩] 86450 1).1
    ∧ (prune_old_ads [⟨"new", "t", "p", "u", 50, 50⟩] 40 0).1 = [⟨"new", "t", "p", "u", 50, 50⟩] := by
  refine ⟨(prune_old_ads_spec _ 86450 1).1 _ (by decide) (by decide),
    (prune_old_ads_spec _ 86450 1).2.1 _ (by decide) (by decide),
    ((prune_old_ads_spec [⟨"new", "t", "p", "u", 50, 50⟩] 40 0).2.2.2.2 ?_).1⟩
  intro e he
  simp only [List.mem_singleton] at he
  subst he
  decide

/-- C4: get_recent_ads returns a permutation of exactly the rows with
last_checked at or after now minus days * 86400 seconds, sorted by
last_checked descending. -/
theorem get_recent_ads_spec : ∀ (db : List AdEntry) (now days : Int),
    (get_recent_ads db now days).Perm
      (db.filter (fun e => decide (now - days * 86400 ≤ e.last_checked)))
    ∧ List.Sorted adGe (get_recent_ads db now days)
    ∧ ∀ e : AdEntry, e ∈ get_recent_ads db now days ↔
        e ∈ db ∧ now - days * 86400 ≤ e.last_checked := by
  intro db now days
  refine ⟨List.perm_insertionSort _ _, List.sorted_insertionSort _ _, ?_⟩
  intro e
  unfold get_recent_ads
  rw [(List.perm_insertionSort adGe _).mem_iff, List.mem_filter]
  simp

/-- C4 witness: concrete store; the fresh rows come back most recent first. -/
theorem get_recent_ads_spec_witness :
    get_recent_ads [⟨"a", "t", "p", "u", 10, 10⟩, ⟨"b", "t", "p", "u", 90, 90⟩,
        ⟨"c", "t", "p", "u", 95, 95⟩] 95 0 = [⟨"c", "t", "p", "u", 95, 95⟩] ∧
    ((⟨"b", "t", "p", "u", 90, 90⟩ : AdEntry) ∈
        get_recent_ads [⟨"a", "t", "p", "u", 10, 10⟩, ⟨"b", "t", "p", "u", 90, 90⟩] 50 0 ↔
      (⟨"b", "t", "p", "u", 90, 90⟩ : AdEntry) ∈
        ([⟨"a", "t", "p", "u", 10, 10⟩, ⟨"b", "t", "p", "u", 90, 90⟩] : List AdEntry) ∧
        (50 : Int) - 0 * 86400 ≤ 90) :=
  ⟨by decide, (get_recent_ads_spec [⟨"a", "t", "p", "u", 10, 10⟩,
    ⟨"b", "t", "p", "u", 90, 90⟩] 50 0).2.2 _⟩

/-- C5: in every table state reachable from the empty table by upserts and
prunes under a monotone clock, ad_id is unique and every row satisfies
first_seen less than or equal to last_checked. -/
theorem store_invariants : ∀ (t : Int) (db : List AdEntry), ReachableDb t db →
    (db.map (fun e => e.ad_id)).Nodup ∧ ∀ e ∈ db, e.first_seen ≤ e.last_checked :=
  fun _ _ h => ⟨(reachable_aux h).1, fun e he => ((reachable_aux h).2 e he).1⟩

/-- C5 witness: the invariants hold of a concrete reachable two-row state. -/
theorem store_invariants_witness :
    (((prune_old_ads (upsert_listing (upsert_listing [] "a" "t" "p" "u" 1).1
        "b" "t" "p" "u" 2).1 3 14).1.map (fun e => e.ad_id)).Nodup ∧
      ∀ e ∈ (prune_old_ads (upsert_listing (upsert_listing [] "a" "t" "p" "u" 1).1
        "b" "t" "p" "u" 2).1 3 14).1, e.first_seen ≤ e.last_checked) :=
  store_invariants 3 _ (ReachableDb.prune 2 _ 14 3 (by norm_num)
    (ReachableDb.upsert 1 _ "b" "t" "p" "u" 2 (by norm_num)
      (ReachableDb.upsert 0 [] "a" "t" "p" "u" 1 (by norm_num) (ReachableDb.init 0))))

/-! Claim theorem for the config-update boundary. -/

theorem checkLevelNames_ok {url : String} : ∀ {ks : List String},
    checkLevelNames url ks = Except.ok () → ∀ k ∈ ks, validLevelName k = true := by
  intro ks
  induction ks with
  | nil => intro _ k hk; exact absurd hk (List.not_mem_nil k)
  | cons a t ih =>
    intro hok k hk
    by_cases hv : validLevelName a = false
    · simp [checkLevelNames, hv] at hok
    · rw [Bool.not_eq_false] at hv
      simp only [checkLevelNames, hv] at hok
      rcases List.mem_cons.mp hk with rfl | hkt
      · exact hv
      · exact ih (by simpa using hok) k hkt

theorem checkUrlFilters_ok {urlOk : String → Bool} :
    ∀ {l : List (String × List (String × List String))},
    checkUrlFilters urlOk l = Except.ok () →
      ∀ p ∈ l, urlOk p.1 = true ∧ ∀ k ∈ p.2.map Prod.fst, validLevelName k = true := by
  intro l
  induction l with
  | nil => intro _ p hp; exact absurd hp (List.not_mem_nil p)
  | cons a t ih =>
    intro hok p hp
    obtain ⟨url, filters⟩ := a
    by_cases hu : urlOk url = false
    · simp [checkUrlFilters, hu] at hok
    · rw [Bool.not_eq_false] at hu
      simp only [checkUrlFilters, hu] at hok
      cases hlv : checkLevelNames url (filters.map Prod.fst) with
      | error e => rw [hlv] at hok; simp at hok
      | ok u =>
        rw [hlv] at hok
        simp only at hok
        rcases List.mem_cons.mp hp with rfl | hpt
        · exact ⟨hu, checkLevelNames_ok hlv⟩
        · exact ih hok p hpt

theorem validate_ok_parts {urlOk : String → Bool} {c : Config}
    (h : Config.validate urlOk c = Except.ok ()) :
    c.server_port ≠ 0 ∧ c.refresh_interval_minutes ≠ 0 ∧
      checkUrlFilters urlOk c.url_filters = Except.ok () := by
  by_cases hp : c.server_port = 0
  · simp [Config.validate, hp] at h
  · by_cases hrf : c.refresh_interval_minutes = 0
    · simp [Config.validate, hp, hrf] at h
    · exact ⟨hp, hrf, by simpa [Config.validate, hp, hrf] using h⟩

/-- C6: a configuration that fails validation is rejected by update_config
with the validation error and no state mutation (neither the persisted file
nor the shared configuration changes); and a zero server port, a zero refresh
interval, a URL rejected by the URL parser, or a filter level name that is
not level followed by at least one digit each make validation fail. -/
theorem update_config_rejects_invalid :
    (∀ (urlOk : String → Bool) (saveOk : Bool) (st : AppState) (c : Config) (e : String),
      Config.validate urlOk c = Except.error e →
        update_config urlOk saveOk st c = (st, UpdateResponse.badRequest e))
    ∧ (∀ (urlOk : String → Bool) (c : Config), c.server_port = 0 →
        Config.validate urlOk c ≠ Except.ok ())
    ∧ (∀ (urlOk : String → Bool) (c : Config), c.refresh_interval_minutes = 0 →
        Config.validate urlOk c ≠ Except.ok ())
    ∧ (∀ (urlOk : String → Bool) (c : Config) (url : String)
        (fs : List (String × List String)), (url, fs) ∈ c.url_filters →
        urlOk url = false → Config.validate urlOk c ≠ Except.ok ())
    ∧ (∀ (urlOk : String → Bool) (c : Config) (url : String)
        (fs : List (String × List String)) (k : String) (kws : List String),
        (url, fs) ∈ c.url_filters → (k, kws) ∈ fs →
        validLevelName k = false → Config.validate urlOk c ≠ Except.ok ()) := by
  refine ⟨?_, ?_, ?_, ?_, ?_⟩
  · intro urlOk saveOk st c e h
    simp [update_config, h]
  · intro urlOk c hp h
    simp [Config.validate, hp] at h
  · intro urlOk c hrf h
    by_cases hp : c.server_port = 0 <;> simp [Config.validate, hp, hrf] at h
  · intro urlOk c url fs hmem hbad h
    have hcf := (validate_ok_parts h).2.2
    have := (checkUrlFilters_ok hcf (url, fs) hmem).1
    rw [this] at hbad
    exact absurd hbad (by simp)
  · intro urlOk c url fs k kws hmem hkmem hbad h
    have hcf := (validate_ok_parts h).2.2
    have := (checkUrlFilters_ok hcf (url, fs) hmem).2 k
      (List.mem_map_of_mem Prod.fst hkmem)
    rw [this] at hbad
    exact absurd hbad (by simp)

/-- C6 witness: a submitted configuration with server port zero is rejected
with status 400 and the exact validation message, and the state pair (file,
shared configuration) is returned unchanged. -/
theorem update_config_rejects_invalid_witness :
    update_config (fun _ => true) true
      ⟨none, ⟨"0.0.0.0", 5000, "$", 15, "log", "db", []⟩⟩
      ⟨"0.0.0.0", 0, "$", 15, "log", "db", []⟩ =
      (⟨none, ⟨"0.0.0.0", 5000, "$", 15, "log", "db", []⟩⟩,
        UpdateResponse.badRequest "Server port must be greater than 0") ∧
    Config.validate (fun _ => true) ⟨"0.0.0.0", 0, "$", 15, "log", "db", []⟩ ≠
      Except.ok () :=
  ⟨update_config_rejects_invalid.1 _ _ _ _ _ rfl,
   update_config_rejects_invalid.2.1 _ _ rfl⟩

/-! Claim theorems for the filter evaluator. -/

/-- Declarative pass test of one level key against the lowercased title. -/
def levelPass (filters : List (String × List String)) (title_lower k : String) : Bool :=
  match alist_find? filters k with
  | none => true
  | some kws => kws.isEmpty || kws.any (keywordHit title_lower)

theorem checkLevels_eq_all (filters : List (String × List String)) (tl : String) :
    ∀ ls : List String, checkLevels filters tl ls = ls.all (levelPass filters tl) := by
  intro ls
  induction ls with
  | nil => rfl
  | cons l rest ih =>
    simp only [checkLevels, List.all_cons]
    cases hf : alist_find? filters l with
    | none => simp [levelPass, hf, ih]
    | some kws =>
      by_cases hke : kws.isEmpty
      · simp [levelPass, hf, hke, ih]
      · by_cases hka : kws.any (keywordHit tl) = true
        · simp [levelPass, hf, hke, hka, ih]
        · simp [levelPass, hf, hke, hka]

theorem alist_find?_some_of_mem {β : Type} :
    ∀ (l : List (String × β)) (k : String) (v : β),
    (l.map Prod.fst).Nodup → (k, v) ∈ l → alist_find? l k = some v := by
  intro l
  induction l with
  | nil => intro k v _ hm; exact absurd hm (List.not_mem_nil _)
  | cons p t ih =>
    intro k v hnd hm
    rcases List.mem_cons.mp hm with rfl | hmt
    · simp [alist_find?, List.find?_cons_of_pos]
    · have hne : p.1 ≠ k := by
        intro hEq
        have hk : k ∈ t.map Prod.fst := List.mem_map.mpr ⟨(k, v), hmt, rfl⟩
        rw [List.map_cons, List.nodup_cons] at hnd
        exact hnd.1 (hEq ▸ hk)
      have hred : List.find? (fun q => decide (q.1 = k)) (p :: t) =
          List.find? (fun q => decide (q.1 = k)) t :=
        List.find?_cons_of_neg _ (by simp [hne])
      simp only [alist_find?, hred]
      exact ih k v (by rw [List.map_cons, List.nodup_cons] at hnd; exact hnd.2) hmt

/-- C2: the evaluator realizes AND-across-levels, OR-within-level semantics:
with a filter entry for the URL whose keys are unique (as in a HashMap), the
title passes iff every level-named entry is empty or has some keyword that
occurs case-insensitively in the title; the visited level sequence is exactly
the valid level keys sorted ascending by numeric suffix; and on the concrete
scenario filter, iPhone 15 Pro Max passes while iPhone 15 Base and
Google Pixel Pro fail. -/
theorem apply_filters_and_or_semantics :
    (∀ (cfg : List (String × List (String × List String))) (url title : String)
      (filters : List (String × List String)),
      alist_find? cfg url = some filters → (filters.map Prod.fst).Nodup →
      (apply_filters cfg url title = true ↔
        ∀ p ∈ filters, isLevelKey p.1 = true →
          (p.2 = [] ∨ ∃ kw ∈ p.2, keywordHit (to_lowercase title) kw = true)))
    ∧ (∀ ks : List String, List.Sorted levelLe (List.insertionSort levelLe ks) ∧
        (List.insertionSort levelLe ks).Perm ks)
    ∧ apply_filters
        [("https://x", [("level1", ["iphone", "samsung"]), ("level2", ["pro", "plus"])])]
        "https://x" "iPhone 15 Pro Max" = true
    ∧ apply_filters
        [("https://x", [("level1", ["iphone", "samsung"]), ("level2", ["pro", "plus"])])]
        "https://x" "iPhone 15 Base" = false
    ∧ apply_filters
        [("https://x", [("level1", ["iphone", "samsung"]), ("level2", ["pro", "plus"])])]
        "https://x" "Google Pixel Pro" = false := by
  refine ⟨?_, fun ks => ⟨List.sorted_insertionSort _ _, List.perm_insertionSort _ _⟩,
    by decide, by decide, by decide⟩
  intro cfg url title filters hfind hnd
  simp only [apply_filters, hfind]
  by_cases hfe : filters.isEmpty = true
  · have : filters = [] := List.isEmpty_iff.mp hfe
    subst this
    simp
  · simp only [hfe, if_false, Bool.false_eq_true]
    by_cases hse :
        (List.insertionSort levelLe ((filters.map Prod.fst).filter isLevelKey)).isEmpty = true
    · simp only [hse, if_true]
      have hLnil : (filters.map Prod.fst).filter isLevelKey = [] := by
        have hsp := List.perm_insertionSort levelLe ((filters.map Prod.fst).filter isLevelKey)
        rw [List.isEmpty_iff.mp hse] at hsp
        exact (List.perm_nil.mp hsp.symm).symm ▸ rfl
      constructor
      · intro _ p hp hlk
        have : p.1 ∈ (filters.map Prod.fst).filter isLevelKey :=
          List.mem_filter.mpr ⟨List.mem_map_of_mem Prod.fst hp, hlk⟩
        rw [hLnil] at this
        exact absurd this (List.not_mem_nil _)
      · intro _
        trivial
    · simp only [hse, if_false, Bool.false_eq_true]
      rw [checkLevels_eq_all, List.all_eq_true]
      constructor
      · intro hall p hp hlk
        have hmemL : p.1 ∈ (filters.map Prod.fst).filter isLevelKey :=
          List.mem_filter.mpr ⟨List.mem_map_of_mem Prod.fst hp, hlk⟩
        have hmemS := (List.perm_insertionSort levelLe _).mem_iff.mpr hmemL
        have hpass := hall _ hmemS
        have hfk : alist_find? filters p.1 = some p.2 :=
          alist_find?_some_of_mem filters p.1 p.2 hnd (by rwa [Prod.mk.eta])
        simp only [levelPass, hfk, Bool.or_eq_true, List.isEmpty_iff,
          List.any_eq_true] at hpass
        exact hpass
      · intro hR k hk
        have hkL := (List.perm_insertionSort levelLe _).mem_iff.mp hk
        obtain ⟨hkmap, hlk⟩ := List.mem_filter.mp hkL
        obtain ⟨p, hp, hpe⟩ := List.mem_map.mp hkmap
        have hfk : alist_find? filters k = some p.2 := by
          subst hpe
          exact alist_find?_some_of_mem filters p.1 p.2 hnd (by rwa [Prod.mk.eta])
        have hRp := hR p hp (hpe ▸ hlk)
        simp only [levelPass, hfk, Bool.or_eq_true, List.isEmpty_iff, List.any_eq_true]
        exact hRp

/-- C2 witness: the declarative equivalence instantiated at the scenario
filter and the scenario title. -/
theorem apply_filters_and_or_semantics_witness :
    apply_filters
        [("https://x", [("level1", ["iphone", "samsung"]), ("level2", ["pro", "plus"])])]
        "https://x" "iPhone 15 Pro Max" = true ↔
      ∀ p ∈ [("level1", ["iphone", "samsung"]), ("level2", ["pro", "plus"])],
        isLevelKey p.1 = true →
          (p.2 = [] ∨ ∃ kw ∈ p.2, keywordHit (to_lowercase "iPhone 15 Pro Max") kw = true) :=
  apply_filters_and_or_semantics.1
    [("https://x", [("level1", ["iphone", "samsung"]), ("level2", ["pro", "plus"])])]
    "https://x" "iPhone 15 Pro Max" _ rfl (by decide)

/-- C7 counterexample: the bare key level is not a level name of the form
level followed by a positive integer (Config::validate rejects it), yet the
evaluator does not ignore it: with it present the title abc is rejected,
without it the same title passes, so the key has an effect. -/
theorem bare_level_key_not_ignored :
    validLevelName "level" = false ∧
    apply_filters [("https://x", [("level", ["zzz"]), ("level1", ["abc"])])]
      "https://x" "abc" = false ∧
    apply_filters [("https://x", [("level1", ["abc"])])] "https://x" "abc" = true := by
  decide

theorem checkLevels_cons_ne (k : String) (kws : List String)
    (filters : List (String × List String)) (tl : String) :
    ∀ ls : List String, (∀ l ∈ ls, l ≠ k) →
      checkLevels ((k, kws) :: filters) tl ls = checkLevels filters tl ls := by
  intro ls
  induction ls with
  | nil => intro _; rfl
  | cons l rest ih =>
    intro hne
    have hl : l ≠ k := hne l (List.mem_cons_self l rest)
    have hfind : alist_find? ((k, kws) :: filters) l = alist_find? filters l := by
      simp only [alist_find?]
      rw [List.find?_cons_of_neg _ (by simp; exact fun hh => hl hh.symm)]
    have ihr := ih (fun x hx => hne x (List.mem_cons_of_mem _ hx))
    simp only [checkLevels, hfind]
    cases hf2 : alist_find? filters l with
    | none => simpa using ihr
    | some kws2 =>
      by_cases hke : kws2.isEmpty = true
      · simp [hke, ihr]
      · by_cases hka : kws2.any (keywordHit tl) = true
        · simp [hke, hka, ihr]
        · simp [hke, hka]

/-- C7 amended: the evaluator considers exactly the keys that start with
level and whose remainder is all ASCII digits, the remainder possibly empty,
so the bare key level participates (with numeric value 0); a key failing that
test is silently ignored and has no effect on the result. -/
theorem apply_filters_ignores_invalid_keys :
    ∀ (url title k : String) (kws : List String)
      (filters : List (String × List String)), isLevelKey k = false →
      apply_filters [(url, (k, kws) :: filters)] url title =
        apply_filters [(url, filters)] url title := by
  intro url title k kws filters hk
  have hfind1 : alist_find? [(url, (k, kws) :: filters)] url = some ((k, kws) :: filters) := by
    simp [alist_find?]
  have hfind2 : alist_find? [(url, filters)] url = some filters := by
    simp [alist_find?]
  simp only [apply_filters, hfind1, hfind2]
  have hkeys : (((k, kws) :: filters).map Prod.fst).filter isLevelKey =
      (filters.map Prod.fst).filter isLevelKey := by
    simp [List.filter_cons, hk]
  rw [hkeys]
  by_cases hfe : filters.isEmpty = true
  · have : filters = [] := List.isEmpty_iff.mp hfe
    subst this
    simp
  · simp only [hfe, List.isEmpty_cons, Bool.false_eq_true, if_false]
    by_cases hse :
        (List.insertionSort levelLe ((filters.map Prod.fst).filter isLevelKey)).isEmpty = true
    · simp [hse]
    · simp only [hse, Bool.false_eq_true, if_false]
      apply checkLevels_cons_ne
      intro l hls hEq
      have hlL := (List.perm_insertionSort levelLe _).mem_iff.mp hls
      have hlk := (List.mem_filter.mp hlL).2
      rw [hEq, hk] at hlk
      exact Bool.false_ne_true hlk

/-- C7 amended witness: dropping the ignored key levelA does not change the
verdict on a concrete filter and title. -/
theorem apply_filters_ignores_invalid_keys_witness :
    apply_filters [("https://x", [("levelA", ["zzz"]), ("level1", ["abc"])])]
        "https://x" "abc" =
      apply_filters [("https://x", [("level1", ["abc"])])] "https://x" "abc" :=
  apply_filters_ignores_invalid_keys "https://x" "abc" "levelA" ["zzz"]
    [("level1", ["abc"])] (by decide)

/-- C8 counterexample: an entry whose only key is the bare key level, which
does not match level followed by at least one digit (Config::validate rejects
it), still rejects a non-matching title instead of passing it. -/
theorem no_valid_level_names_still_rejects :
    validLevelName "level" = false ∧
    apply_filters [("https://y", [("level", ["widget"])])] "https://y" "gadget sale" = false := by
  decide

/-- C8 amended: the evaluator returns true when the URL has no filter entry,
when the entry has zero levels, and when no key passes the evaluator's level
test (starts with level, remainder all digits, possibly empty); keys failing
that weaker test cannot cause a rejection. -/
theorem apply_filters_vacuous_pass :
    (∀ (cfg : List (String × List (String × List String))) (url title : String),
      alist_find? cfg url = none → apply_filters cfg url title = true)
    ∧ (∀ (cfg : List (String × List (String × List String))) (url title : String),
      alist_find? cfg url = some ([] : List (String × List String)) →
        apply_filters cfg url title = true)
    ∧ (∀ (cfg : List (String × List (String × List String))) (url title : String)
      (filters : List (String × List String)), alist_find? cfg url = some filters →
        (filters.map Prod.fst).filter isLevelKey = [] →
        apply_filters cfg url title = true) := by
  refine ⟨?_, ?_, ?_⟩
  · intro cfg url title h
    simp [apply_filters, h]
  · intro cfg url title h
    simp [apply_filters, h]
  · intro cfg url title filters h hL
    simp [apply_filters, h, hL]

/-- C8 amended witness: a missing entry, an empty entry, and an entry with
only an invalid key each pass a concrete title. -/
theorem apply_filters_vacuous_pass_witness :
    apply_filters [] "https://x" "t" = true ∧
    apply_filters [("https://y", [])] "https://y" "t" = true ∧
    apply_filters [("https://z", [("levelA", ["x"])])] "https://z" "t" = true :=
  ⟨apply_filters_vacuous_pass.1 [] "https://x" "t" rfl,
   apply_filters_vacuous_pass.2.1 [("https://y", [])] "https://y" "t" rfl,
   apply_filters_vacuous_pass.2.2 [("https://z", [("levelA", ["x"])])] "https://z" "t"
     [("levelA", ["x"])] rfl (by decide)⟩

/-! Claim theorems for the extractor. -/

theorem extractGo_sound (currency : String) :
    ∀ (elems : List AdLinkElem) (processed : List String)
      (c : String × String × String × String), c ∈ extractGo currency elems processed →
      (∃ el ∈ elems, ∃ h : String, el.href = some h ∧ c.2.2.2 = canonical_url h) ∧
      c.1 = get_ad_hash c.2.2.2 ∧ price_ok currency c.2.2.1 = true := by
  intro elems
  induction elems with
  | nil =>
    intro processed c hc
    simp [extractGo] at hc
  | cons e rest ih =>
    intro processed c hc
    cases hh : e.href with
    | none =>
      rw [show extractGo currency (e :: rest) processed = extractGo currency rest processed
        from by simp [extractGo, hh]] at hc
      obtain ⟨⟨el, hel, hrest⟩, hother⟩ := ih processed c hc
      exact ⟨⟨el, List.mem_cons_of_mem _ hel, hrest⟩, hother⟩
    | some h =>
      by_cases hmem : canonical_url h ∈ processed
      · rw [show extractGo currency (e :: rest) processed = extractGo currency rest processed
          from by simp [extractGo, hh, hmem]] at hc
        obtain ⟨⟨el, hel, hrest⟩, hother⟩ := ih processed c hc
        exact ⟨⟨el, List.mem_cons_of_mem _ hel, hrest⟩, hother⟩
      · cases ht : e.title with
        | none =>
          rw [show extractGo currency (e :: rest) processed =
              extractGo currency rest (canonical_url h :: processed)
            from by simp [extractGo, hh, hmem, ht]] at hc
          obtain ⟨⟨el, hel, hrest⟩, hother⟩ := ih _ c hc
          exact ⟨⟨el, List.mem_cons_of_mem _ hel, hrest⟩, hother⟩
        | some t =>
          cases hp : e.price with
          | none =>
            rw [show extractGo currency (e :: rest) processed =
                extractGo currency rest (canonical_url h :: processed)
              from by simp [extractGo, hh, hmem, ht, hp]] at hc
            obtain ⟨⟨el, hel, hrest⟩, hother⟩ := ih _ c hc
            exact ⟨⟨el, List.mem_cons_of_mem _ hel, hrest⟩, hother⟩
          | some p =>
            by_cases hpo : price_ok currency p = true
            · rw [show extractGo currency (e :: rest) processed =
                  (get_ad_hash (canonical_url h), t, p, canonical_url h) ::
                    extractGo currency rest (canonical_url h :: processed)
                from by simp [extractGo, hh, hmem, ht, hp, hpo]] at hc
              rcases List.mem_cons.mp hc with rfl | hct
              · exact ⟨⟨e, List.mem_cons_self _ _, h, hh, rfl⟩, rfl, hpo⟩
              · obtain ⟨⟨el, hel, hrest⟩, hother⟩ := ih _ c hct
                exact ⟨⟨el, List.mem_cons_of_mem _ hel, hrest⟩, hother⟩
            · rw [show extractGo currency (e :: rest) processed =
                  extractGo currency rest (canonical_url h :: processed)
                from by simp [extractGo, hh, hmem, ht, hp, hpo]] at hc
              obtain ⟨⟨el, hel, hrest⟩, hother⟩ := ih _ c hc
              exact ⟨⟨el, List.mem_cons_of_mem _ hel, hrest⟩, hother⟩

theorem extractGo_nodup (currency : String) :
    ∀ (elems : List AdLinkElem) (processed : List String),
      ((extractGo currency elems processed).map (fun c => c.2.2.2)).Nodup ∧
      ∀ u ∈ (extractGo currency elems processed).map (fun c => c.2.2.2), u ∉ processed := by
  intro elems
  induction elems with
  | nil =>
    intro processed
    constructor
    · simp [extractGo]
    · intro u hu
      simp [extractGo] at hu
  | cons e rest ih =>
    intro processed
    have hskip : ∀ out : List (String × String × String × String),
        out = extractGo currency rest processed →
        ((out.map (fun c => c.2.2.2)).Nodup ∧
          ∀ u ∈ out.map (fun c => c.2.2.2), u ∉ processed) := by
      rintro _ rfl
      exact ih processed
    have hskip2 : ∀ (u0 : String) (out : List (String × String × String × String)),
        out = extractGo currency rest (u0 :: processed) →
        ((out.map (fun c => c.2.2.2)).Nodup ∧
          ∀ u ∈ out.map (fun c => c.2.2.2), u ∉ processed) := by
      rintro u0 _ rfl
      obtain ⟨ihn, ihp⟩ := ih (u0 :: processed)
      exact ⟨ihn, fun u hu hup => (ihp u hu) (List.mem_cons_of_mem _ hup)⟩
    cases hh : e.href with
    | none =>
      rw [show extractGo currency (e :: rest) processed = extractGo currency rest processed
        from by simp [extractGo, hh]]
      exact hskip _ rfl
    | some h =>
      by_cases hmem : canonical_url h ∈ processed
      · rw [show extractGo currency (e :: rest) processed = extractGo currency rest processed
          from by simp [extractGo, hh, hmem]]
        exact hskip _ rfl
      · cases ht : e.title with
        | none =>
          rw [show extractGo currency (e :: rest) processed =
              extractGo currency rest (canonical_url h :: processed)
            from by simp [extractGo, hh, hmem, ht]]
          exact hskip2 _ _ rfl
        | some t =>
          cases hp : e.price with
          | none =>
            rw [show extractGo currency (e :: rest) processed =
                extractGo currency rest (canonical_url h :: processed)
              from by simp [extractGo, hh, hmem, ht, hp]]
            exact hskip2 _ _ rfl
          | some p =>
            by_cases hpo : price_ok currency p = true
            · rw [show extractGo currency (e :: rest) processed =
                  (get_ad_hash (canonical_url h), t, p, canonical_url h) ::
                    extractGo currency rest (canonical_url h :: processed)
                from by simp [extractGo, hh, hmem, ht, hp, hpo]]
              obtain ⟨ihn, ihp⟩ := ih (canonical_url h :: processed)
              constructor
              · rw [List.map_cons, List.nodup_cons]
                exact ⟨fun hin => (ihp _ hin) (List.mem_cons_self _ _), ihn⟩
              · intro u hu hup
                rw [List.map_cons] at hu
                rcases List.mem_cons.mp hu with rfl | hut
                · exact hmem hup
                · exact (ihp u hut) (List.mem_cons_of_mem _ hup)
            · rw [show extractGo currency (e :: rest) processed =
                  extractGo currency rest (canonical_url h :: processed)
                from by simp [extractGo, hh, hmem, ht, hp, hpo]]
              exact hskip2 _ _ rfl

/-- C9: every candidate returned by extract_ads has a price that starts with
the configured currency symbol or whose lowercasing contains free; a
candidate whose price satisfies neither condition is therefore never
returned. -/
theorem extract_ads_price_filter :
    ∀ (elems : List AdLinkElem) (currency : String),
      (extract_ads elems currency).all (fun c => price_ok currency c.2.2.1) = true := by
  intro elems currency
  rw [List.all_eq_true]
  intro c hc
  exact (extractGo_sound currency elems [] c hc).2.2

/-! Digest shape and collision lemmas for get_ad_hash. -/

theorem length_flatMap_byteHex : ∀ l : List Nat, (l.flatMap byteHex).length = 2 * l.length := by
  intro l
  induction l with
  | nil => rfl
  | cons b t ih =>
    rw [List.flatMap_cons, List.length_append, ih]
    simp [byteHex]
    omega

theorem md5Digest_length (msg : List Nat) : (md5Digest msg).length = 16 := by
  simp [md5Digest, digestOfWords, le32]

theorem get_ad_hash_length (u : String) : (get_ad_hash u).length = 32 := by
  show (String.mk ((md5Digest (utf8Bytes u)).flatMap byteHex)).length = 32
  rw [String.length_mk, length_flatMap_byteHex, md5Digest_length]

theorem hexDigit_mem (n : Nat) : hexDigit n ∈ hexChars := by
  unfold hexDigit
  rw [List.getD_eq_getElem?_getD]
  cases hx : hexChars[n % 16]? with
  | none => decide
  | some c =>
    simp only [Option.getD_some]
    exact List.getElem?_mem hx

theorem mem_flatMap_byteHex {ch : Char} {l : List Nat} (h : ch ∈ l.flatMap byteHex) :
    ch ∈ hexChars := by
  obtain ⟨b, _, hb⟩ := List.mem_flatMap.mp h
  simp only [byteHex, List.mem_cons, List.mem_singleton, List.not_mem_nil, or_false] at hb
  rcases hb with rfl | rfl <;> exact hexDigit_mem _

theorem get_ad_hash_hex (u : String) :
    ((get_ad_hash u).data.all (fun ch => decide (ch ∈ hexChars))) = true := by
  rw [List.all_eq_true]
  intro ch hch
  simp only [decide_eq_true_eq]
  exact mem_flatMap_byteHex (show ch ∈ (md5Digest (utf8Bytes u)).flatMap byteHex from hch)

theorem md5Words_bounds (msg : List Nat) :
    (md5Words msg).1 < 4294967296 ∧ (md5Words msg).2.1 < 4294967296 ∧
      (md5Words msg).2.2.1 < 4294967296 ∧ (md5Words msg).2.2.2 < 4294967296 := by
  refine ⟨?_, ?_, ?_, ?_⟩ <;> exact Nat.mod_lt _ (by norm_num)

/-- The four digest words packed into one number below 2^128. -/
def packWords (w : Nat × Nat × Nat × Nat) : Nat :=
  w.1 + 4294967296 * w.2.1 + 18446744073709551616 * w.2.2.1 +
    79228162514264337593543950336 * w.2.2.2

theorem packWords_lt (msg : List Nat) :
    packWords (md5Words msg) < 340282366920938463463374607431768211456 := by
  have hb := md5Words_bounds msg
  unfold packWords
  omega

theorem packWords_inj {w v : Nat × Nat × Nat × Nat}
    (hw1 : w.1 < 4294967296) (hw2 : w.2.1 < 4294967296) (hw3 : w.2.2.1 < 4294967296)
    (hv1 : v.1 < 4294967296) (hv2 : v.2.1 < 4294967296) (hv3 : v.2.2.1 < 4294967296)
    (h : packWords w = packWords v) : w = v := by
  obtain ⟨a, b, c, d⟩ := w
  obtain ⟨e, f, g, k⟩ := v
  simp only [packWords] at h
  simp only at hw1 hw2 hw3 hv1 hv2 hv3
  simp only [Prod.mk.injEq]
  refine ⟨?_, ?_, ?_, ?_⟩ <;> omega

theorem truncate_replicate_a (k : Nat) :
    truncate_at_query (String.mk (List.replicate k 'a')) = String.mk (List.replicate k 'a') := by
  simp only [truncate_at_query]
  congr 1
  induction k with
  | zero => rfl
  | succ n ih =>
    rw [List.replicate_succ, List.takeWhile_cons]
    simp [ih]

/-- C10 counterexample: there are two distinct canonical URLs (both of the
shape the extractor produces: the facebook prefix glued to a truncated href)
whose MD5 digests coincide: a 128-bit digest cannot be injective on the
infinitely many canonical URLs, so distinct canonical URLs do not always
yield distinct digests. -/
theorem get_ad_hash_collision :
    ∃ s t : String, canonical_url s ≠ canonical_url t ∧
      get_ad_hash (canonical_url s) = get_ad_hash (canonical_url t) := by
  obtain ⟨m, n, hmn, hFeq⟩ := Finite.exists_ne_map_eq_of_infinite
    (fun k : ℕ => (⟨packWords (md5Words (utf8Bytes (canonical_url
      (String.mk (List.replicate k 'a'))))), packWords_lt _⟩ :
      Fin 340282366920938463463374607431768211456))
  refine ⟨String.mk (List.replicate m 'a'), String.mk (List.replicate n 'a'), ?_, ?_⟩
  · intro hc
    have hlen := congrArg String.length hc
    rw [canonical_url, canonical_url, String.length_append, String.length_append,
      truncate_replicate_a, truncate_replicate_a] at hlen
    simp only [String.length_mk, List.length_replicate] at hlen
    exact hmn (by omega)
  · have hval : packWords (md5Words (utf8Bytes (canonical_url
        (String.mk (List.replicate m 'a'))))) =
        packWords (md5Words (utf8Bytes (canonical_url (String.mk (List.replicate n 'a'))))) := by
      have := congrArg Fin.val hFeq
      simpa using this
    have hb1 := md5Words_bounds (utf8Bytes (canonical_url (String.mk (List.replicate m 'a'))))
    have hb2 := md5Words_bounds (utf8Bytes (canonical_url (String.mk (List.replicate n 'a'))))
    have hw := packWords_inj hb1.1 hb1.2.1 hb1.2.2.1 hb2.1 hb2.2.1 hb2.2.2.1 hval
    simp only [get_ad_hash, md5Hex, md5Digest]
    rw [hw]

/-- C10 amended: every candidate's canonical URL is the facebook prefix glued
to some element's href truncated at the first question mark; within one
extraction the canonical URLs are pairwise distinct (later duplicates are
dropped); every candidate's identity is the MD5 hex digest of its canonical
URL, which, the digest being a function of the URL, is the same whenever the
canonical URL is the same; and every digest is a 32-character string of
lowercase hexadecimal characters.  (Distinct canonical URLs are NOT
guaranteed distinct digests; see the collision counterexample.) -/
theorem extract_ads_canonicalization :
    (∀ (elems : List AdLinkElem) (currency : String),
      (extract_ads elems currency).all (fun c => elems.any (fun el =>
        match el.href with
        | some h => c.2.2.2 == canonical_url h
        | none => false)) = true)
    ∧ (∀ (elems : List AdLinkElem) (currency : String),
      ((extract_ads elems currency).map (fun c => c.2.2.2)).Nodup)
    ∧ (∀ (elems : List AdLinkElem) (currency : String),
      (extract_ads elems currency).all (fun c => c.1 == get_ad_hash c.2.2.2) = true)
    ∧ (∀ u : String, (get_ad_hash u).length = 32 ∧
      ((get_ad_hash u).data.all (fun ch => decide (ch ∈ hexChars))) = true) := by
  refine ⟨?_, ?_, ?_, fun u => ⟨get_ad_hash_length u, get_ad_hash_hex u⟩⟩
  · intro elems currency
    rw [List.all_eq_true]
    intro c hc
    obtain ⟨⟨el, hel, h, hhref, hurl⟩, -, -⟩ := extractGo_sound currency elems [] c hc
    rw [List.any_eq_true]
    refine ⟨el, hel, ?_⟩
    rw [hhref]
    simp only [hurl, beq_self_eq_true]
  · intro elems currency
    exact (extractGo_nodup currency elems []).1
  · intro elems currency
    rw [List.all_eq_true]
    intro c hc
    have := (extractGo_sound currency elems [] c hc).2.1
    simp [this]

